import Mathlib

/-!
Verification of the Ledger & Settlement Engine of the `settle_up` repository
(`src/app.py`) against its natural-language specification.

The engine's monetary values are Python floats; here they are embedded as
rationals (`ℚ`).  Python's 2-decimal `round` is embedded as `round2`
(round-half-up on rationals, per the spec's §4.1 rounding choice); the two
modes agree away from exact half-cent boundaries and all concrete inputs
used below avoid those boundaries except where the rounding itself is the
point.  Python dicts are embedded as association lists in insertion order
(`List (String × ℚ)`) or, while folding, as functions `String → ℚ` over a
fixed key list.
-/

namespace SettleUp

/-- Rounding to 2 decimal places, as Python's `round(x, 2)`:
`round2 q = round(100·q)/100`. -/
def round2 (q : ℚ) : ℚ := (round (100 * q) : ℤ) / 100

/-- `q` is a whole number of cents (an integer multiple of `0.01`). -/
def isCents (q : ℚ) : Prop := ∃ n : ℤ, q = n / 100

/-- The breakdown dict returned by `calculate_total_amount` (src/app.py:212-219). -/
structure Breakdown where
  base_amount : ℚ
  discount_amount : ℚ
  amount_after_discount : ℚ
  service_tax_amount : ℚ
  gst_amount : ℚ
  total_amount : ℚ
  deriving DecidableEq, Repr

/-- `calculate_total_amount` (src/app.py:191-222): returns `none` when some
input is negative (the function's only validation), otherwise the rounded
breakdown with `amount_after_discount` clamped at 0. -/
def calculate_total_amount (base_amount discount_amount service_tax_amount gst_amount : ℚ) :
    Option Breakdown :=
  if base_amount < 0 ∨ discount_amount < 0 ∨ service_tax_amount < 0 ∨ gst_amount < 0 then
    none
  else
    let amount_after_discount := max (base_amount - discount_amount) 0
    let total_amount := amount_after_discount + service_tax_amount + gst_amount
    some { base_amount := round2 base_amount
           discount_amount := round2 discount_amount
           amount_after_discount := round2 amount_after_discount
           service_tax_amount := round2 service_tax_amount
           gst_amount := round2 gst_amount
           total_amount := round2 total_amount }

/-- One settlement dict `{'from': ..., 'to': ..., 'amount': ...}`
(src/app.py:251-255).  `fromMember`/`toMember` stand for the `'from'`/`'to'`
keys (`from` is a Lean keyword). -/
structure Settlement where
  fromMember : String
  toMember : String
  amount : ℚ
  deriving DecidableEq, Repr

/-- Python's stable `list.sort(key=lambda x: x[1], reverse=True)`:
descending by amount, ties keep original order (src/app.py:239-241). -/
def sortDesc (l : List (String × ℚ)) : List (String × ℚ) :=
  l.insertionSort (fun a b => b.2 ≤ a.2)

/-- The creditor list of `simplify_debts`: entries with balance `> 0.01`,
sorted descending (src/app.py:230-240). -/
def creditorsOf (balances : List (String × ℚ)) : List (String × ℚ) :=
  sortDesc (balances.filter (fun p => decide ((1 : ℚ)/100 < p.2)))

/-- The debtor list of `simplify_debts`: entries with balance `< -0.01`,
stored as `(member, -balance)`, sorted descending (src/app.py:230-241). -/
def debtorsOf (balances : List (String × ℚ)) : List (String × ℚ) :=
  sortDesc ((balances.filter (fun p => decide (p.2 < -((1 : ℚ)/100)))).map (fun p => (p.1, -p.2)))

/-- The settlement loop of `simplify_debts` (src/app.py:244-265): repeatedly
match the head creditor and head debtor, record the min as a settlement, and
drop whichever side is exhausted (both on a tie). -/
def settleLoop (cs ds : List (String × ℚ)) : List Settlement :=
  match cs, ds with
  | [], _ => []
  | _ :: _, [] => []
  | (c, ca) :: cs', (d, da) :: ds' =>
    let amt := min ca da
    { fromMember := d, toMember := c, amount := round2 amt } ::
      (if da < ca then settleLoop ((c, ca - da) :: cs') ds'
       else if ca < da then settleLoop cs' ((d, da - ca) :: ds')
       else settleLoop cs' ds')
termination_by cs.length + ds.length
decreasing_by
  all_goals (simp only [List.length_cons]; omega)

/-- `simplify_debts` (src/app.py:224-267). -/
def simplify_debts (balances : List (String × ℚ)) : List Settlement :=
  settleLoop (creditorsOf balances) (debtorsOf balances)

/-- Equal-split share allocation (src/app.py:799-805): every group member gets
an entry; participants get `round(total / len(participants), 2)`, the rest 0. -/
def allocEqual (total : ℚ) (members participants : List String) : List (String × ℚ) :=
  members.map (fun m =>
    (m, if m ∈ participants then round2 (total / participants.length) else 0))

/-- The custom-split running sum `total_custom` (src/app.py:808-815): the
supplied shares summed over the group members that are participants. -/
def customActual (members participants : List String) (supplied : String → ℚ) : ℚ :=
  ((members.filter (fun m => decide (m ∈ participants))).map supplied).sum

/-- Custom-split allocation (src/app.py:806-820): each participant gets the
caller-supplied share (no sign check), non-participants get 0, and the request
is rejected when `|total_custom - total| > 0.01`.  `ShareMismatch(expected,
actual)` is modelled as `Except.error (expected, actual)`. -/
def allocCustom (total : ℚ) (members participants : List String) (supplied : String → ℚ) :
    Except (ℚ × ℚ) (List (String × ℚ)) :=
  let shares := members.map (fun m => (m, if m ∈ participants then supplied m else 0))
  let total_custom := customActual members participants supplied
  if 1/100 < |total_custom - total| then Except.error (total, total_custom)
  else Except.ok shares

/-- One stored expense record, restricted to the fields that `settle_up`'s
balance aggregation reads (src/app.py:877-887): the rounded total `amount`,
the payer `paid_by`, and the `shares` dict (as an association list). -/
structure Expense where
  amount : ℚ
  paid_by : String
  shares : List (String × ℚ)
  deriving DecidableEq, Repr

/-- Credit the payer (src/app.py:879-882): `balances[payer] += amount`, only
when the payer is a key of the balances dict (i.e. a group member). -/
def creditPayer (members : List String) (bal : String → ℚ) (e : Expense) : String → ℚ :=
  if e.paid_by ∈ members then Function.update bal e.paid_by (bal e.paid_by + e.amount) else bal

/-- Debit the shares (src/app.py:884-887): `balances[member] -= share` for
every entry of the expense's shares dict whose key is a group member. -/
def debitShares (members : List String) : (String → ℚ) → List (String × ℚ) → String → ℚ
  | bal, [] => bal
  | bal, (k, s) :: rest =>
    debitShares members (if k ∈ members then Function.update bal k (bal k - s) else bal) rest

/-- The effect of one expense on the balances dict (src/app.py:877-887). -/
def applyExpense (members : List String) (bal : String → ℚ) (e : Expense) : String → ℚ :=
  debitShares members (creditPayer members bal e) e.shares

/-- The net balance function before rounding (src/app.py:867-887): start from
0 for every member and fold over the group's expenses. -/
def rawBalances (members : List String) (es : List Expense) : String → ℚ :=
  es.foldl (applyExpense members) (fun _ => 0)

/-- `settle_up`'s balances dict (src/app.py:867-890): one entry per group
member, in member order, each rounded to 2 decimals. -/
def aggregateBalances (members : List String) (es : List Expense) : List (String × ℚ) :=
  members.map (fun m => (m, round2 (rawBalances members es m)))

/-- What one expense's shares dict subtracts from member `m`'s balance. -/
def shareDebit (members : List String) (l : List (String × ℚ)) (m : String) : ℚ :=
  if m ∈ members then ((l.filter (fun p => decide (p.1 = m))).map Prod.snd).sum else 0

/-- One expense's net effect on member `m`'s balance. -/
def expContrib (members : List String) (e : Expense) (m : String) : ℚ :=
  (if e.paid_by ∈ members ∧ m = e.paid_by then e.amount else 0) - shareDebit members e.shares m

/-- Applying one settlement as an actual payment: the debtor (`fromMember`)
pays, so their (negative) balance rises by `amount`; the creditor's
(positive) balance falls by `amount`. -/
def applySettlement (bal : String → ℚ) (s : Settlement) : String → ℚ :=
  fun m => bal m + (if s.fromMember = m then s.amount else 0)
    - (if s.toMember = m then s.amount else 0)

/-- Applying a list of settlements in order, as payments. -/
def applySettlements (bal : String → ℚ) (ss : List Settlement) : String → ℚ :=
  ss.foldl applySettlement bal

/-- Modelled from the spec: the claim's literal application rule, "subtracting
amount from the `from` member's balance and adding it to the `to` member's
balance" (§8 "Settlement correctness").  With the code's sign convention
(positive balance = is owed money, settlements flow debtor→creditor) this is
the reverse of a payment. -/
def applySettlementAsWritten (bal : String → ℚ) (s : Settlement) : String → ℚ :=
  fun m => bal m - (if s.fromMember = m then s.amount else 0)
    + (if s.toMember = m then s.amount else 0)

/-- The claim's literal application rule folded over a settlement list. -/
def applySettlementsAsWritten (bal : String → ℚ) (ss : List Settlement) : String → ℚ :=
  ss.foldl applySettlementAsWritten bal

/-- The net effect of a settlement list on member `m`'s balance (payments
received count negatively against a credit, payments made count positively
against a debt). -/
def netChange (ss : List Settlement) (m : String) : ℚ :=
  (ss.map (fun s => (if s.fromMember = m then s.amount else 0)
    - (if s.toMember = m then s.amount else 0))).sum

/-- Balance lookup in the association-list embedding of the balances dict. -/
def lookupAmt (b : List (String × ℚ)) (m : String) : ℚ :=
  ((b.find? (fun p => decide (p.1 = m))).map Prod.snd).getD 0

/-- The surplus of the creditor side over the debtor side (0 when the debtor
side is at least as large). -/
def excessOf (cs ds : List (String × ℚ)) : ℚ :=
  max ((cs.map Prod.snd).sum - (ds.map Prod.snd).sum) 0

/-- Compute `round2` from floor bounds on `100·q + 1/2`. -/
theorem round2_eq (q : ℚ) (n : ℤ) (h1 : (n : ℚ) ≤ 100 * q + 1/2) (h2 : 100 * q + 1/2 < n + 1) :
    round2 q = n / 100 := by
  have h : round (100 * q) = n := by
    rw [round_eq]
    exact Int.floor_eq_iff.mpr ⟨h1, h2⟩
  rw [round2, h]

/-- `round2` is the identity on whole-cent values. -/
theorem round2_cents {q : ℚ} (h : isCents q) : round2 q = q := by
  obtain ⟨n, rfl⟩ := h
  have h100 : (100 : ℚ) * (n / 100) = n := by
    rw [mul_comm, div_mul_cancel₀]
    norm_num
  rw [round2, h100, round_intCast]

theorem isCents_sub {a b : ℚ} (ha : isCents a) (hb : isCents b) : isCents (a - b) := by
  obtain ⟨n, rfl⟩ := ha
  obtain ⟨m, rfl⟩ := hb
  exact ⟨n - m, by push_cast; ring⟩

theorem isCents_neg {a : ℚ} (ha : isCents a) : isCents (-a) := by
  obtain ⟨n, rfl⟩ := ha
  exact ⟨-n, by push_cast; ring⟩

theorem isCents_min {a b : ℚ} (ha : isCents a) (hb : isCents b) : isCents (min a b) := by
  rcases min_cases a b with ⟨h, _⟩ | ⟨h, _⟩ <;> rw [h] <;> assumption

/-- C3 (counterexample): the claim says the returned breakdown has
`afterDiscount = max(base - discount, 0)` for every `base > 0`, but for
`base = 0.005` the code returns the rounded value `0.01`, not `0.005`. -/
theorem calculate_total_after_discount_cx :
    (calculate_total_amount (1/200) 0 0 0).map Breakdown.amount_after_discount = some (1/100) ∧
      (1/100 : ℚ) ≠ max ((1/200 : ℚ) - 0) 0 := by
  have hmax : max ((1 : ℚ)/200 - 0) 0 = 1/200 := by norm_num
  have hr : round2 ((1 : ℚ)/200) = 1/100 := by
    have h := round2_eq ((1 : ℚ)/200) 1 (by norm_num) (by norm_num)
    norm_num at h
    exact h
  refine ⟨?_, by norm_num⟩
  norm_num [calculate_total_amount, hmax, hr]

/-- C3 (amended): for every `base > 0` and `discount, serviceTax, gst ≥ 0`,
`calculate_total_amount` returns the breakdown whose `total_amount` is
`max(base - discount, 0) + serviceTax + gst` rounded to 2 decimals and whose
`amount_after_discount` is `max(base - discount, 0)` rounded to 2 decimals;
in particular `calculate_total_amount 100 20 5 10` yields
`afterDiscount = 80` and `total = 95`. -/
theorem calculate_total_spec (b d st g : ℚ) (hb : 0 < b) (hd : 0 ≤ d) (hst : 0 ≤ st)
    (hg : 0 ≤ g) :
    calculate_total_amount b d st g =
      some { base_amount := round2 b, discount_amount := round2 d,
             amount_after_discount := round2 (max (b - d) 0),
             service_tax_amount := round2 st, gst_amount := round2 g,
             total_amount := round2 (max (b - d) 0 + st + g) } ∧
    calculate_total_amount 100 20 5 10 = some ⟨100, 20, 80, 5, 10, 95⟩ := by
  constructor
  · have hcond : ¬(b < 0 ∨ d < 0 ∨ st < 0 ∨ g < 0) := by
      push_neg
      exact ⟨hb.le, hd, hst, hg⟩
    rw [calculate_total_amount, if_neg hcond]
  · have hcents : ∀ n : ℤ, round2 ((n : ℚ)) = n := fun n =>
      round2_cents ⟨n * 100, by push_cast; ring⟩
    have h100 : round2 (100 : ℚ) = 100 := by have := hcents 100; norm_num at this ⊢; exact this
    have h20 : round2 (20 : ℚ) = 20 := by have := hcents 20; norm_num at this ⊢; exact this
    have h80 : round2 (80 : ℚ) = 80 := by have := hcents 80; norm_num at this ⊢; exact this
    have h5 : round2 (5 : ℚ) = 5 := by have := hcents 5; norm_num at this ⊢; exact this
    have h10 : round2 (10 : ℚ) = 10 := by have := hcents 10; norm_num at this ⊢; exact this
    have h95 : round2 (95 : ℚ) = 95 := by have := hcents 95; norm_num at this ⊢; exact this
    norm_num [calculate_total_amount, h100, h20, h80, h5, h10, h95]

/-- C3 witness: the amended theorem instantiated at `(100, 20, 5, 10)`. -/
theorem calculate_total_spec_witness :
    calculate_total_amount 100 20 5 10 = some ⟨100, 20, 80, 5, 10, 95⟩ :=
  (calculate_total_spec 100 20 5 10 (by norm_num) (by norm_num) (by norm_num) (by norm_num)).2

/-- C4 (counterexample): the claim says `baseAmount == 0` yields the error
result, but the code accepts it and returns a zero breakdown. -/
theorem calculate_total_zero_base_cx :
    calculate_total_amount 0 0 0 0 = some ⟨0, 0, 0, 0, 0, 0⟩ := by
  have h0 : round2 (0 : ℚ) = 0 := round2_cents ⟨0, by norm_num⟩
  norm_num [calculate_total_amount, h0]

/-- C4 (amended): `calculate_total_amount` returns the error result (`none`)
exactly when some input is negative; `baseAmount = 0` with the other inputs
non-negative is accepted and returns a breakdown. -/
theorem calculate_total_invalid_iff (b d st g : ℚ) :
    (calculate_total_amount b d st g = none ↔ b < 0 ∨ d < 0 ∨ st < 0 ∨ g < 0) ∧
    (b = 0 → 0 ≤ d → 0 ≤ st → 0 ≤ g → calculate_total_amount b d st g ≠ none) := by
  constructor
  · by_cases h : b < 0 ∨ d < 0 ∨ st < 0 ∨ g < 0
    · simp [calculate_total_amount, if_pos h, h]
    · simp [calculate_total_amount, if_neg h, h]
  · intro hb hd hst hg
    have h : ¬(b < 0 ∨ d < 0 ∨ st < 0 ∨ g < 0) := by
      push_neg
      exact ⟨hb.ge, hd, hst, hg⟩
    simp [calculate_total_amount, if_neg h]

/-- C4 witness: the amended theorem instantiated at `(0, 0, 0, 0)`. -/
theorem calculate_total_invalid_iff_witness : calculate_total_amount 0 0 0 0 ≠ none :=
  (calculate_total_invalid_iff 0 0 0 0).2 rfl le_rfl le_rfl le_rfl

/-- `round2` moves a value by at most half a cent. -/
theorem abs_round2_sub_le (q : ℚ) : |round2 q - q| ≤ 1/200 := by
  have h2 : round2 q - q = ((round (100 * q) : ℚ) - 100 * q) / 100 := by
    rw [round2]; ring
  rw [h2, abs_div]
  have h3 : |(100 : ℚ)| = 100 := by norm_num
  rw [h3]
  have h := abs_sub_round ((100 : ℚ) * q)
  rw [abs_sub_comm] at h
  linarith

theorem sum_map_ite_mem (members participants : List String) (r : ℚ) :
    (members.map (fun m => if m ∈ participants then r else 0)).sum =
      (members.countP (fun m => decide (m ∈ participants)) : ℚ) * r := by
  induction members with
  | nil => simp
  | cons a l ih =>
    by_cases h : a ∈ participants
    · simp [List.countP_cons, h, ih]
      ring
    · simp [h, ih, List.countP_cons]

theorem countP_mem_eq_length {members participants : List String} (hm : members.Nodup)
    (hp : participants.Nodup) (hsub : ∀ m ∈ participants, m ∈ members) :
    members.countP (fun m => decide (m ∈ participants)) = participants.length := by
  rw [List.countP_eq_length_filter]
  have hperm : List.Perm (members.filter (fun m => decide (m ∈ participants))) participants := by
    rw [List.perm_ext_iff_of_nodup (List.Nodup.filter _ hm) hp]
    intro a
    simp only [List.mem_filter, decide_eq_true_eq]
    exact ⟨fun h => h.2, fun h => ⟨hsub a h, h⟩⟩
  exact hperm.length_eq

/-- C5 (counterexample): the claim says the equal-split shares sum to within
0.01 of the total, but splitting 1.00 six ways gives 6 × 0.17 = 1.02. -/
theorem equal_split_sum_cx :
    1/100 <
      |((allocEqual 1 ["A", "B", "C", "D", "E", "F"] ["A", "B", "C", "D", "E", "F"]).map
          Prod.snd).sum - 1| := by
  have hr : round2 ((1 : ℚ)/6) = 17/100 := by
    have h := round2_eq ((1 : ℚ)/6) 17 (by norm_num) (by norm_num)
    norm_num at h
    exact h
  norm_num [allocEqual, hr]
  rw [abs_of_pos (by norm_num : (0 : ℚ) < 1/50)]
  norm_num

/-- C5 (amended): for a non-empty, duplicate-free participant set contained in
the (duplicate-free) member list, every participant receives the identical
share `round2 (total / |P|)`, every member outside `P` receives an explicit
share of 0, and the sum of allocated shares is within `0.005 × |P|` of the
total (the rounding drift is NOT redistributed, so it can exceed 0.01). -/
theorem allocEqual_spec (total : ℚ) (members participants : List String)
    (hne : participants ≠ []) (hm : members.Nodup) (hp : participants.Nodup)
    (hsub : ∀ m ∈ participants, m ∈ members) :
    (∀ m ∈ participants,
        (m, round2 (total / participants.length)) ∈ allocEqual total members participants) ∧
    (∀ m ∈ members, m ∉ participants → (m, 0) ∈ allocEqual total members participants) ∧
    |((allocEqual total members participants).map Prod.snd).sum - total| ≤
      (participants.length : ℚ) / 200 := by
  refine ⟨fun m hmem => ?_, fun m hmem hnot => ?_, ?_⟩
  · exact List.mem_map.mpr ⟨m, hsub m hmem, by simp [hmem]⟩
  · exact List.mem_map.mpr ⟨m, hmem, by simp [hnot]⟩
  · have hlen : (0 : ℚ) < participants.length := by
      have := List.length_pos.mpr hne
      exact_mod_cast this
    set q := total / (participants.length : ℚ) with hq
    have hsum : ((allocEqual total members participants).map Prod.snd).sum =
        (participants.length : ℚ) * round2 q := by
      rw [allocEqual, List.map_map]
      have : (Prod.snd ∘ fun m =>
          (m, if m ∈ participants then round2 q else 0)) =
          fun m => if m ∈ participants then round2 q else 0 := rfl
      rw [this, sum_map_ite_mem, countP_mem_eq_length hm hp hsub]
    have htot : total = (participants.length : ℚ) * q := by
      rw [hq, mul_div_cancel₀]
      exact hlen.ne'
    rw [hsum]
    calc |(participants.length : ℚ) * round2 q - total|
        = (participants.length : ℚ) * |round2 q - q| := by
          rw [htot, ← mul_sub, abs_mul, abs_of_pos hlen]
      _ ≤ (participants.length : ℚ) * (1/200) := by
          exact mul_le_mul_of_nonneg_left (abs_round2_sub_le q) hlen.le
      _ = (participants.length : ℚ) / 200 := by ring

/-- C5 witness: the amended theorem at `total = 10`, members = participants
= `["A", "B"]`. -/
theorem allocEqual_spec_witness :
    |((allocEqual 10 ["A", "B"] ["A", "B"]).map Prod.snd).sum - 10| ≤
      ((["A", "B"] : List String).length : ℚ) / 200 :=
  (allocEqual_spec 10 ["A", "B"] ["A", "B"] (by simp) (by simp) (by simp)
    (fun m hm => hm)).2.2

/-- C6 (counterexample): the claim says every supplied share must be
non-negative, but the code performs no sign check: a split of 10 into
`{A: 11, B: -1}` is accepted. -/
theorem custom_split_negative_cx :
    allocCustom 10 ["A", "B"] ["A", "B"] (lookupAmt [("A", 11), ("B", -1)]) =
      Except.ok [("A", 11), ("B", -1)] := by
  have hBA : ("B" : String) ≠ "A" := by decide
  have hA : lookupAmt [("A", (11 : ℚ)), ("B", -1)] "A" = 11 := by
    simp [lookupAmt, List.find?]
  have hB : lookupAmt [("A", (11 : ℚ)), ("B", -1)] "B" = -1 := by
    simp [lookupAmt, List.find?, hBA]
  norm_num [allocCustom, customActual, hBA, hA, hB]

/-- C6 (amended): supplied shares are not sign-checked; the request fails with
`ShareMismatch(expected, actual)` exactly when the participants' supplied
shares sum to more than 0.01 away from the total; in particular shares summing
to `total - 1.00` are rejected with `ShareMismatch(total, total - 1.00)`. -/
theorem allocCustom_spec (total : ℚ) (members participants : List String)
    (supplied : String → ℚ) :
    (allocCustom total members participants supplied =
        Except.error (total, customActual members participants supplied) ↔
      1/100 < |customActual members participants supplied - total|) ∧
    (customActual members participants supplied = total - 1 →
      allocCustom total members participants supplied = Except.error (total, total - 1)) := by
  constructor
  · by_cases h : 1/100 < |customActual members participants supplied - total|
    · simp [allocCustom, if_pos h, h]
    · simp [allocCustom, if_neg h, h]
  · intro h
    have h1 : (1 : ℚ)/100 < |customActual members participants supplied - total| := by
      rw [h]
      norm_num
    simp only [allocCustom]
    rw [if_pos h1, h]

/-- C6 witness: a supplied sum of `total - 1.00` (9 against 10) is rejected
with the pair `(10, 9)`. -/
theorem allocCustom_spec_witness :
    allocCustom 10 ["A"] ["A"] (lookupAmt [("A", 9)]) = Except.error (10, 9) := by
  have hA : lookupAmt [("A", (9 : ℚ))] "A" = 9 := by
    simp [lookupAmt, List.find?]
  have h := (allocCustom_spec 10 ["A"] ["A"] (lookupAmt [("A", 9)])).2
    (by norm_num [customActual, hA])
  norm_num at h
  exact h

theorem creditPayer_apply (members : List String) (bal : String → ℚ) (e : Expense)
    (m : String) :
    creditPayer members bal e m =
      bal m + (if e.paid_by ∈ members ∧ m = e.paid_by then e.amount else 0) := by
  rw [creditPayer]
  by_cases hp : e.paid_by ∈ members
  · rw [if_pos hp, Function.update_apply]
    by_cases hm : m = e.paid_by
    · rw [if_pos hm, if_pos ⟨hp, hm⟩, hm]
    · rw [if_neg hm, if_neg (fun h => hm h.2), add_zero]
  · rw [if_neg hp, if_neg (fun h => hp h.1), add_zero]

theorem shareDebit_cons (members : List String) (k : String) (s : ℚ)
    (rest : List (String × ℚ)) (m : String) :
    shareDebit members ((k, s) :: rest) m =
      (if m ∈ members ∧ k = m then s else 0) + shareDebit members rest m := by
  rw [shareDebit, shareDebit]
  by_cases hm : m ∈ members
  · rw [if_pos hm, if_pos hm]
    by_cases hk : k = m
    · simp [List.filter_cons, hk, hm]
    · simp [List.filter_cons, hk, hm]
  · simp [hm]

theorem debitShares_apply (members : List String) :
    ∀ (l : List (String × ℚ)) (bal : String → ℚ) (m : String),
      debitShares members bal l m = bal m - shareDebit members l m := by
  intro l
  induction l with
  | nil => intro bal m; simp [debitShares, shareDebit]
  | cons p rest ih =>
    intro bal m
    obtain ⟨k, s⟩ := p
    rw [debitShares, ih, shareDebit_cons]
    have hbal : (if k ∈ members then Function.update bal k (bal k - s) else bal) m =
        bal m - (if m ∈ members ∧ k = m then s else 0) := by
      by_cases hkm : k ∈ members
      · rw [if_pos hkm, Function.update_apply]
        by_cases hmk : m = k
        · rw [if_pos hmk, if_pos ⟨hmk ▸ hkm, hmk.symm⟩, hmk]
        · rw [if_neg hmk, if_neg (fun h => hmk h.2.symm), sub_zero]
      · rw [if_neg hkm, if_neg (fun h : m ∈ members ∧ k = m => hkm (h.2 ▸ h.1)), sub_zero]
    rw [hbal]
    ring

theorem applyExpense_apply (members : List String) (bal : String → ℚ) (e : Expense)
    (m : String) : applyExpense members bal e m = bal m + expContrib members e m := by
  rw [applyExpense, debitShares_apply, creditPayer_apply, expContrib]
  ring

theorem foldl_applyExpense (members : List String) :
    ∀ (es : List Expense) (bal : String → ℚ) (m : String),
      es.foldl (applyExpense members) bal m =
        bal m + (es.map (fun e => expContrib members e m)).sum := by
  intro es
  induction es with
  | nil => intro bal m; simp
  | cons e rest ih =>
    intro bal m
    rw [List.foldl_cons, ih, applyExpense_apply, List.map_cons, List.sum_cons]
    ring

theorem rawBalances_def (members : List String) (es : List Expense) (m : String) :
    rawBalances members es m = (es.map (fun e => expContrib members e m)).sum := by
  rw [rawBalances, foldl_applyExpense]
  simp

/-- C8: balance aggregation is order-independent — aggregating two expense
lists that are permutations of each other yields the same balances mapping. -/
theorem aggregate_perm_invariant (members : List String) (es₁ es₂ : List Expense)
    (h : List.Perm es₁ es₂) :
    aggregateBalances members es₁ = aggregateBalances members es₂ := by
  have hraw : ∀ m, rawBalances members es₁ m = rawBalances members es₂ m := by
    intro m
    rw [rawBalances_def, rawBalances_def]
    exact List.Perm.sum_eq (h.map _)
  simp only [aggregateBalances, hraw]

/-- C8 witness: two distinct expenses aggregated in both orders. -/
theorem aggregate_perm_invariant_witness :
    aggregateBalances ["A", "B"]
        [⟨10, "A", [("B", 10)]⟩, ⟨7, "B", [("A", 7)]⟩] =
      aggregateBalances ["A", "B"]
        [⟨7, "B", [("A", 7)]⟩, ⟨10, "A", [("B", 10)]⟩] :=
  aggregate_perm_invariant ["A", "B"] _ _ (List.Perm.swap _ _ _)

/-- C9: the aggregated mapping's keys are exactly the group's members (in
member order), and the two `in balances` guards act independently, per entry:
an expense whose payer is not a member contributes no credit — its entire
effect is its share debits, even when its share keys ARE members
(src/app.py:881); a share entry keyed by a non-member is individually ignored
(src/app.py:886), so debiting depends only on the member-keyed entries; and
consequently a fully malformed expense (non-member payer, non-member share
keys) is silently skipped.  No error is raised anywhere: every operation here
is a total function by construction. -/
theorem aggregate_keys_and_skip (members : List String) :
    (∀ es : List Expense, (aggregateBalances members es).map Prod.fst = members) ∧
    (∀ (bal : String → ℚ) (e : Expense), e.paid_by ∉ members →
      applyExpense members bal e = debitShares members bal e.shares) ∧
    (∀ (bal : String → ℚ) (k : String) (s : ℚ) (rest : List (String × ℚ)), k ∉ members →
      debitShares members bal ((k, s) :: rest) = debitShares members bal rest) ∧
    (∀ (bal : String → ℚ) (l : List (String × ℚ)),
      debitShares members bal l =
        debitShares members bal (l.filter (fun p => decide (p.1 ∈ members)))) ∧
    (∀ (es : List Expense) (e : Expense), e.paid_by ∉ members →
      (∀ p ∈ e.shares, p.1 ∉ members) →
      aggregateBalances members (e :: es) = aggregateBalances members es) := by
  have hkeys : ∀ es : List Expense, (aggregateBalances members es).map Prod.fst = members := by
    intro es
    rw [aggregateBalances, List.map_map]
    exact List.map_id _
  have hcredit : ∀ (bal : String → ℚ) (e : Expense), e.paid_by ∉ members →
      applyExpense members bal e = debitShares members bal e.shares := by
    intro bal e hp
    rw [applyExpense, creditPayer, if_neg hp]
  have hshare : ∀ (bal : String → ℚ) (k : String) (s : ℚ) (rest : List (String × ℚ)),
      k ∉ members → debitShares members bal ((k, s) :: rest) = debitShares members bal rest := by
    intro bal k s rest hk
    rw [debitShares, if_neg hk]
  have hfilter : ∀ (l : List (String × ℚ)) (bal : String → ℚ),
      debitShares members bal l =
        debitShares members bal (l.filter (fun p => decide (p.1 ∈ members))) := by
    intro l
    induction l with
    | nil => intro bal; rfl
    | cons q rest ih =>
      intro bal
      obtain ⟨k, s⟩ := q
      by_cases hk : k ∈ members
      · rw [List.filter_cons, if_pos (decide_eq_true hk), debitShares, debitShares,
          if_pos hk]
        exact ih _
      · rw [List.filter_cons, if_neg (fun hh => hk (of_decide_eq_true hh)), hshare bal k s rest hk]
        exact ih bal
  refine ⟨hkeys, hcredit, hshare, fun bal l => hfilter l bal, ?_⟩
  intro es e hp hs
  have hcontrib : ∀ m, expContrib members e m = 0 := by
    intro m
    rw [expContrib, if_neg (fun h => hp h.1)]
    have h2 : shareDebit members e.shares m = 0 := by
      rw [shareDebit]
      by_cases hm : m ∈ members
      · rw [if_pos hm]
        have hnil : e.shares.filter (fun p => decide (p.1 = m)) = [] := by
          rw [List.filter_eq_nil_iff]
          intro p hp'
          simp only [decide_eq_true_eq]
          exact fun heq => hs p hp' (heq ▸ hm)
        rw [hnil]
        simp
      · rw [if_neg hm]
    rw [h2]
    ring
  have hraw : ∀ m, rawBalances members (e :: es) m = rawBalances members es m := by
    intro m
    rw [rawBalances_def, rawBalances_def, List.map_cons, List.sum_cons, hcontrib]
    ring
  simp only [aggregateBalances, hraw]

/-- C9 witness: over members `["A"]`, a mixed expense paid by non-member `Z`
with a member-keyed share contributes only its debit (the credit is skipped
independently of the share keys), and a share entry keyed by non-member `Y`
is individually dropped. -/
theorem aggregate_keys_and_skip_witness :
    (applyExpense ["A"] (lookupAmt []) ⟨5, "Z", [("A", 5)]⟩ =
      debitShares ["A"] (lookupAmt []) [("A", 5)]) ∧
    (debitShares ["A"] (lookupAmt []) [("Y", 3), ("A", 5)] =
      debitShares ["A"] (lookupAmt []) [("A", 5)]) :=
  ⟨(aggregate_keys_and_skip ["A"]).2.1 (lookupAmt []) ⟨5, "Z", [("A", 5)]⟩ (by simp),
   (aggregate_keys_and_skip ["A"]).2.2.1 (lookupAmt []) "Y" 3 [("A", 5)] (by simp)⟩

theorem sum_map_add (l : List String) (f g : String → ℚ) :
    (l.map (fun m => f m + g m)).sum = (l.map f).sum + (l.map g).sum := by
  induction l with
  | nil => simp
  | cons a t ih =>
    simp [ih]
    ring

theorem sum_map_sub (l : List String) (f g : String → ℚ) :
    (l.map (fun m => f m - g m)).sum = (l.map f).sum - (l.map g).sum := by
  induction l with
  | nil => simp
  | cons a t ih =>
    simp [ih]
    ring

theorem abs_list_sum_le : ∀ l : List ℚ, |l.sum| ≤ (l.map (fun x => |x|)).sum := by
  intro l
  induction l with
  | nil => simp
  | cons a t ih =>
    rw [List.sum_cons, List.map_cons, List.sum_cons]
    calc |a + t.sum| ≤ |a| + |t.sum| := abs_add _ _
      _ ≤ |a| + (t.map (fun x => |x|)).sum := by linarith

theorem sum_ite_single : ∀ (l : List String), l.Nodup → ∀ (k : String), k ∈ l → ∀ (a : ℚ),
    (l.map (fun m => if m = k then a else 0)).sum = a := by
  intro l
  induction l with
  | nil => intro _ k hk; cases hk
  | cons b t ih =>
    intro hl k hk a
    rcases List.mem_cons.mp hk with rfl | hk'
    · have hkt : k ∉ t := (List.nodup_cons.mp hl).1
      have hz : (t.map (fun m => if m = k then a else 0)).sum = 0 := by
        apply List.sum_eq_zero
        intro x hx
        obtain ⟨m, hm, rfl⟩ := List.mem_map.mp hx
        exact if_neg (fun h : m = k => hkt (h ▸ hm))
      simp [hz]
    · have hbk : ¬(b = k) := fun h => (List.nodup_cons.mp hl).1 (h ▸ hk')
      simp [hbk, ih (List.nodup_cons.mp hl).2 k hk' a]

theorem sum_shareDebit (members : List String) (hm : members.Nodup) :
    ∀ shares : List (String × ℚ), (∀ p ∈ shares, p.1 ∈ members) →
      (members.map (fun m => shareDebit members shares m)).sum = (shares.map Prod.snd).sum := by
  intro shares
  induction shares with
  | nil =>
    intro _
    have : ∀ m ∈ members, shareDebit members [] m = 0 := by
      intro m _
      simp [shareDebit]
    rw [List.map_congr_left this]
    simp
  | cons p rest ih =>
    intro hkeys
    obtain ⟨k, s⟩ := p
    have hk : k ∈ members := hkeys (k, s) (List.mem_cons_self _ _)
    have hrest : ∀ p ∈ rest, p.1 ∈ members := fun p hp => hkeys p (List.mem_cons_of_mem _ hp)
    have hstep : ∀ m ∈ members, shareDebit members ((k, s) :: rest) m =
        (if m = k then s else 0) + shareDebit members rest m := by
      intro m hmem
      rw [shareDebit_cons]
      congr 1
      by_cases hkm : k = m
      · rw [if_pos ⟨hmem, hkm⟩, if_pos hkm.symm]
      · rw [if_neg (fun h : m ∈ members ∧ k = m => hkm h.2),
          if_neg (fun h : m = k => hkm h.symm)]
    calc (members.map (fun m => shareDebit members ((k, s) :: rest) m)).sum
        = (members.map (fun m => (if m = k then s else 0) + shareDebit members rest m)).sum := by
          rw [List.map_congr_left hstep]
      _ = s + (rest.map Prod.snd).sum := by
          rw [sum_map_add, sum_ite_single members hm k hk s, ih hrest]
      _ = (((k, s) :: rest).map Prod.snd).sum := by simp

theorem sum_contrib_eq (members : List String) (hm : members.Nodup) (e : Expense)
    (hpay : e.paid_by ∈ members) (hkeys : ∀ p ∈ e.shares, p.1 ∈ members) :
    (members.map (fun m => expContrib members e m)).sum =
      e.amount - (e.shares.map Prod.snd).sum := by
  simp only [expContrib]
  rw [sum_map_sub]
  have hcredit : (members.map
      (fun m => if e.paid_by ∈ members ∧ m = e.paid_by then e.amount else 0)).sum = e.amount := by
    have hcongr : ∀ m ∈ members,
        (if e.paid_by ∈ members ∧ m = e.paid_by then e.amount else 0) =
          (if m = e.paid_by then e.amount else 0) := by
      intro m _
      by_cases h : m = e.paid_by
      · rw [if_pos ⟨hpay, h⟩, if_pos h]
      · rw [if_neg (fun hc : e.paid_by ∈ members ∧ m = e.paid_by => h hc.2), if_neg h]
    rw [List.map_congr_left hcongr, sum_ite_single members hm e.paid_by hpay e.amount]
  rw [hcredit, sum_shareDebit members hm e.shares hkeys]

theorem sum_members_raw (members : List String) :
    ∀ es : List Expense,
      (members.map (fun m => rawBalances members es m)).sum =
        (es.map (fun e => (members.map (fun m => expContrib members e m)).sum)).sum := by
  intro es
  induction es with
  | nil => simp [rawBalances_def]
  | cons e rest ih =>
    have hfun : ∀ m ∈ members, rawBalances members (e :: rest) m =
        expContrib members e m + rawBalances members rest m := by
      intro m _
      rw [rawBalances_def, rawBalances_def, List.map_cons, List.sum_cons]
    calc (members.map (fun m => rawBalances members (e :: rest) m)).sum
        = (members.map (fun m => expContrib members e m + rawBalances members rest m)).sum := by
          rw [List.map_congr_left hfun]
      _ = (members.map (fun m => expContrib members e m)).sum
            + (members.map (fun m => rawBalances members rest m)).sum := sum_map_add _ _ _
      _ = _ := by rw [ih, List.map_cons, List.sum_cons]

/-- C2 (counterexample): two expenses, each individually satisfying the §3
share-sum invariant at the 0.01 boundary (`|10 − 9.99| ≤ 0.01`, payer and
share keys are members), drive the total of the aggregated balances to 0.02,
which is more than 0.01 away from 0. -/
theorem aggregate_zero_sum_cx :
    ("A" : String) ∈ (["A", "B"] : List String) ∧
    ("B" : String) ∈ (["A", "B"] : List String) ∧
    |(10 : ℚ) - ((5 : ℚ) + 499/100)| ≤ 1/100 ∧
    1/100 < |((aggregateBalances ["A", "B"]
        [⟨10, "A", [("A", 5), ("B", 499/100)]⟩,
         ⟨10, "A", [("A", 5), ("B", 499/100)]⟩]).map Prod.snd).sum| := by
  refine ⟨by simp, by simp, by norm_num [abs_of_nonneg], ?_⟩
  have hBA : ("B" : String) ≠ "A" := by decide
  have hAB : ("A" : String) ≠ "B" := by decide
  have hrawA : rawBalances ["A", "B"]
      [⟨10, "A", [("A", 5), ("B", 499/100)]⟩, ⟨10, "A", [("A", 5), ("B", 499/100)]⟩] "A" = 10 := by
    rw [rawBalances_def]
    norm_num [expContrib, shareDebit, hBA, hAB, List.filter_cons]
  have hrawB : rawBalances ["A", "B"]
      [⟨10, "A", [("A", 5), ("B", 499/100)]⟩, ⟨10, "A", [("A", 5), ("B", 499/100)]⟩] "B"
        = -(998/100) := by
    rw [rawBalances_def]
    norm_num [expContrib, shareDebit, hBA, hAB, List.filter_cons]
  have h10 : round2 (10 : ℚ) = 10 := round2_cents ⟨1000, by norm_num⟩
  have h998 : round2 (-(998/100) : ℚ) = -(998/100) := round2_cents ⟨-998, by norm_num⟩
  rw [aggregateBalances]
  simp only [List.map_cons, List.map_nil, List.sum_cons, List.sum_nil, hrawA, hrawB, h10, h998]
  rw [show (10 : ℚ) + (-(998/100) + 0) = 1/50 by norm_num,
    abs_of_pos (by norm_num : (0 : ℚ) < 1/50)]
  norm_num

/-- C2 (amended): for duplicate-free members and expenses whose payer and
share keys are members and whose shares sum to the expense amount within
0.01, the aggregated balances sum to within
`0.01 × (number of expenses) + 0.005 × (number of members)` of 0.  (The
per-expense epsilon and the final per-member rounding both accumulate, so the
flat 0.01 bound of the claim fails for two or more expenses.) -/
theorem aggregate_sum_bound (members : List String) (es : List Expense) (hm : members.Nodup)
    (hval : ∀ e ∈ es, e.paid_by ∈ members ∧ (∀ p ∈ e.shares, p.1 ∈ members) ∧
      |e.amount - (e.shares.map Prod.snd).sum| ≤ 1/100) :
    |((aggregateBalances members es).map Prod.snd).sum| ≤
      (es.length : ℚ) / 100 + (members.length : ℚ) / 200 := by
  have hsnd : (aggregateBalances members es).map Prod.snd
      = members.map (fun m => round2 (rawBalances members es m)) := by
    rw [aggregateBalances, List.map_map]
    rfl
  have hsplit : (members.map (fun m => round2 (rawBalances members es m))).sum
      = (members.map (fun m => rawBalances members es m)).sum
        + (members.map (fun m => round2 (rawBalances members es m)
            - rawBalances members es m)).sum := by
    rw [← sum_map_add]
    congr 1
    apply List.map_congr_left
    intro m _
    ring
  have hraw : |(members.map (fun m => rawBalances members es m)).sum| ≤ (es.length : ℚ)/100 := by
    rw [sum_members_raw]
    calc |(es.map (fun e => (members.map (fun m => expContrib members e m)).sum)).sum|
        ≤ ((es.map (fun e => (members.map (fun m => expContrib members e m)).sum)).map
            (fun x => |x|)).sum := abs_list_sum_le _
      _ = (es.map (fun e => |(members.map (fun m => expContrib members e m)).sum|)).sum := by
          rw [List.map_map]
          rfl
      _ ≤ (es.map (fun _ => (1 : ℚ)/100)).sum := by
          apply List.sum_le_sum
          intro e he
          rw [sum_contrib_eq members hm e (hval e he).1 (hval e he).2.1]
          exact (hval e he).2.2
      _ = (es.length : ℚ)/100 := by
          rw [List.map_const', List.sum_replicate, nsmul_eq_mul]
          ring
  have hrnd : |(members.map (fun m => round2 (rawBalances members es m)
      - rawBalances members es m)).sum| ≤ (members.length : ℚ)/200 := by
    calc |(members.map (fun m => round2 (rawBalances members es m)
        - rawBalances members es m)).sum|
        ≤ ((members.map (fun m => round2 (rawBalances members es m)
            - rawBalances members es m)).map (fun x => |x|)).sum := abs_list_sum_le _
      _ = (members.map (fun m => |round2 (rawBalances members es m)
            - rawBalances members es m|)).sum := by
          rw [List.map_map]
          rfl
      _ ≤ (members.map (fun _ => (1 : ℚ)/200)).sum := by
          apply List.sum_le_sum
          intro m _
          exact abs_round2_sub_le _
      _ = (members.length : ℚ)/200 := by
          rw [List.map_const', List.sum_replicate, nsmul_eq_mul]
          ring
  rw [hsnd, hsplit]
  calc |(members.map (fun m => rawBalances members es m)).sum
      + (members.map (fun m => round2 (rawBalances members es m)
          - rawBalances members es m)).sum|
      ≤ |(members.map (fun m => rawBalances members es m)).sum|
        + |(members.map (fun m => round2 (rawBalances members es m)
            - rawBalances members es m)).sum| := abs_add _ _
    _ ≤ (es.length : ℚ)/100 + (members.length : ℚ)/200 := by linarith

/-- C2 witness: the amended bound at one exact expense over two members. -/
theorem aggregate_sum_bound_witness :
    |((aggregateBalances ["A", "B"] [⟨10, "A", [("A", 5), ("B", 5)]⟩]).map Prod.snd).sum| ≤
      (([⟨10, "A", [("A", 5), ("B", 5)]⟩] : List Expense).length : ℚ) / 100
        + ((["A", "B"] : List String).length : ℚ) / 200 := by
  apply aggregate_sum_bound ["A", "B"] [⟨10, "A", [("A", 5), ("B", 5)]⟩] (by simp)
  intro e he
  simp only [List.mem_singleton] at he
  subst he
  refine ⟨by simp, ?_, by norm_num⟩
  intro p hp
  rcases List.mem_cons.mp hp with rfl | hp'
  · simp
  · simp only [List.mem_singleton] at hp'
    subst hp'
    simp

theorem orderedInsert_filter_eq (v : ℚ) :
    ∀ (L : List (String × ℚ)) (a : String × ℚ),
      (List.orderedInsert (fun x y : String × ℚ => y.2 ≤ x.2) a L).filter
          (fun p => decide (p.2 = v)) =
        if a.2 = v then a :: L.filter (fun p => decide (p.2 = v))
        else L.filter (fun p => decide (p.2 = v)) := by
  intro L
  induction L with
  | nil =>
    intro a
    by_cases ha : a.2 = v
    · simp [List.orderedInsert, List.filter, ha]
    · simp [List.orderedInsert, List.filter, ha]
  | cons b L ih =>
    intro a
    rw [List.orderedInsert]
    by_cases hr : b.2 ≤ a.2
    · rw [if_pos hr]
      by_cases ha : a.2 = v
      · simp [List.filter_cons, ha]
      · simp [List.filter_cons, ha]
    · rw [if_neg hr, List.filter_cons, List.filter_cons, ih a]
      by_cases hb : b.2 = v
      · by_cases ha : a.2 = v
        · exact absurd (le_of_eq (hb.trans ha.symm)) hr
        · simp [ha, hb]
      · by_cases ha : a.2 = v
        · simp [ha, hb]
        · simp [ha, hb]

theorem sortDesc_filter_stable (l : List (String × ℚ)) (v : ℚ) :
    (sortDesc l).filter (fun p => decide (p.2 = v)) = l.filter (fun p => decide (p.2 = v)) := by
  induction l with
  | nil => simp [sortDesc, List.insertionSort]
  | cons a t ih =>
    rw [sortDesc, List.insertionSort, orderedInsert_filter_eq v _ a, List.filter_cons]
    by_cases ha : a.2 = v
    · rw [if_pos ha, ← sortDesc, ih]
      simp [ha]
    · rw [if_neg ha, ← sortDesc, ih]
      simp [ha]

/-- C7: `simplify_debts` is deterministic (equal inputs give identical
settlement sequences); its sorts are stable — entries with equal amounts keep
their relative (insertion) order, stated as: for each amount `v` the
subsequence of entries carrying `v` survives sorting unchanged; and on
`{A: 60, B: -30, C: -30}` it returns `[B→A 30, C→A 30]` in that order. -/
theorem simplify_debts_deterministic :
    (∀ b₁ b₂ : List (String × ℚ), b₁ = b₂ → simplify_debts b₁ = simplify_debts b₂) ∧
    (∀ (l : List (String × ℚ)) (v : ℚ),
      (sortDesc l).filter (fun p => decide (p.2 = v)) =
        l.filter (fun p => decide (p.2 = v))) ∧
    simplify_debts [("A", 60), ("B", -30), ("C", -30)] =
      [⟨"B", "A", 30⟩, ⟨"C", "A", 30⟩] := by
  refine ⟨fun b₁ b₂ h => h ▸ rfl, sortDesc_filter_stable, ?_⟩
  have h30 : round2 (30 : ℚ) = 30 := round2_cents ⟨3000, by norm_num⟩
  norm_num [simplify_debts, creditorsOf, debtorsOf, sortDesc,
    List.insertionSort, List.orderedInsert, settleLoop, min_def, h30]

/-- C7 witness: determinism instantiated at a concrete balances list. -/
theorem simplify_debts_deterministic_witness :
    simplify_debts [("A", (60 : ℚ)), ("B", -30), ("C", -30)] =
      simplify_debts [("A", 60), ("B", -30), ("C", -30)] :=
  simplify_debts_deterministic.1 _ _ rfl

theorem settleLoop_length (cs ds : List (String × ℚ)) :
    (settleLoop cs ds).length ≤ cs.length + ds.length - 1 := by
  generalize hn : cs.length + ds.length = n
  induction n using Nat.strong_induction_on generalizing cs ds with
  | _ n ih =>
    rcases cs with _ | ⟨⟨c, ca⟩, cs'⟩
    · simp [settleLoop]
    · rcases ds with _ | ⟨⟨d, da⟩, ds'⟩
      · simp [settleLoop]
      · simp only [List.length_cons] at hn
        rw [settleLoop]
        simp only [List.length_cons]
        split
        · have h := ih ((cs'.length + 1) + ds'.length) (by omega) ((c, ca - da) :: cs') ds'
            (by simp [List.length_cons])
          simp only [List.length_cons] at h
          omega
        · split
          · have h := ih (cs'.length + (ds'.length + 1)) (by omega) cs' ((d, da - ca) :: ds')
              (by simp [List.length_cons])
            simp only [List.length_cons] at h
            omega
          · have h := ih (cs'.length + ds'.length) (by omega) cs' ds' rfl
            omega

/-- C10: the settlement loop of `simplify_debts` terminates (it is a total
function, defined by well-founded recursion on exactly the measure the claim
names: each iteration removes at least one entry from the creditor or debtor
list), and the returned sequence has at most
`(number of creditors) + (number of debtors) - 1` settlements. -/
theorem simplify_debts_length_bound (balances : List (String × ℚ)) :
    (simplify_debts balances).length ≤
      (creditorsOf balances).length + (debtorsOf balances).length - 1 :=
  settleLoop_length _ _

theorem netChange_nil (m : String) : netChange [] m = 0 := by
  simp [netChange]

theorem netChange_cons (s : Settlement) (ss : List Settlement) (m : String) :
    netChange (s :: ss) m = ((if s.fromMember = m then s.amount else 0)
      - (if s.toMember = m then s.amount else 0)) + netChange ss m := by
  simp [netChange]

theorem applySettlements_apply :
    ∀ (ss : List Settlement) (bal : String → ℚ) (m : String),
      applySettlements bal ss m = bal m + netChange ss m := by
  intro ss
  induction ss with
  | nil =>
    intro bal m
    simp [applySettlements, netChange]
  | cons s t ih =>
    intro bal m
    rw [applySettlements, List.foldl_cons, ← applySettlements, ih, netChange_cons]
    simp only [applySettlement]
    ring

theorem applySettlementsAsWritten_apply :
    ∀ (ss : List Settlement) (bal : String → ℚ) (m : String),
      applySettlementsAsWritten bal ss m = bal m - netChange ss m := by
  intro ss
  induction ss with
  | nil =>
    intro bal m
    simp [applySettlementsAsWritten, netChange]
  | cons s t ih =>
    intro bal m
    rw [applySettlementsAsWritten, List.foldl_cons, ← applySettlementsAsWritten, ih,
      netChange_cons]
    simp only [applySettlementAsWritten]
    ring

theorem lookupAmt_eq :
    ∀ (b : List (String × ℚ)), (b.map Prod.fst).Nodup →
      ∀ p ∈ b, lookupAmt b p.1 = p.2 := by
  intro b
  induction b with
  | nil => intro _ p hp; cases hp
  | cons q t ih =>
    intro hnd p hp
    obtain ⟨k, w⟩ := q
    simp only [List.map_cons, List.nodup_cons] at hnd
    rcases List.mem_cons.mp hp with rfl | hp'
    · rw [lookupAmt, List.find?_cons_of_pos _ (by simp)]
      simp
    · have hk : ¬(k = p.1) := by
        intro h
        exact hnd.1 (h ▸ List.mem_map.mpr ⟨p, hp', rfl⟩)
      rw [lookupAmt, List.find?_cons_of_neg _ (by simp [hk]), ← lookupAmt]
      exact ih hnd.2 p hp'

/-- Invariant of the settlement loop: every creditor's final position
(`amount + netChange`) lies in `[0, excessOf cs ds]`, every debtor's final
position (`amount - netChange`) lies in `[0, excessOf ds cs]`, and members
not listed are untouched.  Requires positive whole-cent amounts and globally
distinct member keys. -/
theorem settleLoop_main :
    ∀ (n : ℕ) (cs ds : List (String × ℚ)), cs.length + ds.length ≤ n →
      (∀ p ∈ cs, 0 < p.2 ∧ isCents p.2) →
      (∀ p ∈ ds, 0 < p.2 ∧ isCents p.2) →
      (cs.map Prod.fst ++ ds.map Prod.fst).Nodup →
      (∀ p ∈ cs, 0 ≤ p.2 + netChange (settleLoop cs ds) p.1 ∧
        p.2 + netChange (settleLoop cs ds) p.1 ≤ excessOf cs ds) ∧
      (∀ p ∈ ds, 0 ≤ p.2 - netChange (settleLoop cs ds) p.1 ∧
        p.2 - netChange (settleLoop cs ds) p.1 ≤ excessOf ds cs) ∧
      (∀ m, m ∉ cs.map Prod.fst → m ∉ ds.map Prod.fst →
        netChange (settleLoop cs ds) m = 0) := by
  intro n
  induction n with
  | zero =>
    intro cs ds hn hc hd hnd
    have hcs : cs = [] := List.length_eq_zero.mp (by omega)
    have hds : ds = [] := List.length_eq_zero.mp (by omega)
    subst hcs
    subst hds
    refine ⟨fun p hp => absurd hp (List.not_mem_nil p),
      fun p hp => absurd hp (List.not_mem_nil p), fun m _ _ => ?_⟩
    rw [settleLoop, netChange_nil]
  | succ n ih =>
    intro cs ds hn hc hd hnd
    rcases cs with _ | ⟨⟨c, ca⟩, cs'⟩
    · -- no creditors: the loop records nothing
      have hS : settleLoop [] ds = [] := by rw [settleLoop]
      refine ⟨fun p hp => absurd hp (List.not_mem_nil p), fun p hp => ?_,
        fun m _ _ => by rw [hS, netChange_nil]⟩
      rw [hS, netChange_nil]
      have hmem : p.2 ∈ ds.map Prod.snd := List.mem_map.mpr ⟨p, hp, rfl⟩
      have hpos : ∀ x ∈ ds.map Prod.snd, (0 : ℚ) ≤ x := by
        intro x hx
        obtain ⟨q, hq, rfl⟩ := List.mem_map.mp hx
        exact (hd q hq).1.le
      have hle : p.2 ≤ (ds.map Prod.snd).sum := List.single_le_sum hpos p.2 hmem
      refine ⟨by linarith [(hd p hp).1], ?_⟩
      have hmax : (ds.map Prod.snd).sum - (([] : List (String × ℚ)).map Prod.snd).sum ≤
          excessOf ds [] := le_max_left _ _
      simp only [List.map_nil, List.sum_nil, sub_zero] at hmax
      simp only [excessOf] at hmax ⊢
      linarith
    · rcases ds with _ | ⟨⟨d, da⟩, ds'⟩
      · -- no debtors: the loop records nothing
        have hS : settleLoop ((c, ca) :: cs') [] = [] := by rw [settleLoop]
        refine ⟨fun p hp => ?_, fun p hp => absurd hp (List.not_mem_nil p),
          fun m _ _ => by rw [hS, netChange_nil]⟩
        rw [hS, netChange_nil]
        have hmem : p.2 ∈ ((c, ca) :: cs').map Prod.snd := List.mem_map.mpr ⟨p, hp, rfl⟩
        have hpos : ∀ x ∈ ((c, ca) :: cs').map Prod.snd, (0 : ℚ) ≤ x := by
          intro x hx
          obtain ⟨q, hq, rfl⟩ := List.mem_map.mp hx
          exact (hc q hq).1.le
        have hle : p.2 ≤ (((c, ca) :: cs').map Prod.snd).sum := List.single_le_sum hpos p.2 hmem
        refine ⟨by linarith [(hc p hp).1], ?_⟩
        have hmax : (((c, ca) :: cs').map Prod.snd).sum -
            (([] : List (String × ℚ)).map Prod.snd).sum ≤ excessOf ((c, ca) :: cs') [] :=
          le_max_left _ _
        simp only [List.map_nil, List.sum_nil, sub_zero] at hmax
        simp only [excessOf] at hmax ⊢
        linarith
      · -- both sides non-empty: one settlement is recorded
        have hca := hc (c, ca) (List.mem_cons_self _ _)
        have hda := hd (d, da) (List.mem_cons_self _ _)
        have hc' : ∀ p ∈ cs', 0 < p.2 ∧ isCents p.2 :=
          fun p hp => hc p (List.mem_cons_of_mem _ hp)
        have hd' : ∀ p ∈ ds', 0 < p.2 ∧ isCents p.2 :=
          fun p hp => hd p (List.mem_cons_of_mem _ hp)
        simp only [List.map_cons] at hnd
        rw [List.nodup_append] at hnd
        obtain ⟨hL, hR, hdisj⟩ := hnd
        have hcncs : c ∉ cs'.map Prod.fst := (List.nodup_cons.mp hL).1
        have hLt : (cs'.map Prod.fst).Nodup := (List.nodup_cons.mp hL).2
        have hdnds : d ∉ ds'.map Prod.fst := (List.nodup_cons.mp hR).1
        have hRt : (ds'.map Prod.fst).Nodup := (List.nodup_cons.mp hR).2
        have hcd : c ≠ d := fun h =>
          hdisj (List.mem_cons_self c _) (h ▸ List.mem_cons_self d _)
        have hcnds : c ∉ ds'.map Prod.fst := fun h =>
          hdisj (List.mem_cons_self c _) (List.mem_cons_of_mem _ h)
        have hdncs : d ∉ cs'.map Prod.fst := fun h =>
          hdisj (List.mem_cons_of_mem _ h) (List.mem_cons_self d _)
        simp only [List.length_cons] at hn
        by_cases h1 : da < ca
        · -- the debtor is exhausted; the creditor keeps the difference
          have hS : settleLoop ((c, ca) :: cs') ((d, da) :: ds') =
              ⟨d, c, da⟩ :: settleLoop ((c, ca - da) :: cs') ds' := by
            simp only [settleLoop]
            rw [if_pos h1, min_eq_right h1.le, round2_cents hda.2]
          have hlen : ((c, ca - da) :: cs').length + ds'.length ≤ n := by
            simp only [List.length_cons]
            omega
          have hcall : ∀ p ∈ (c, ca - da) :: cs', 0 < p.2 ∧ isCents p.2 := by
            intro p hp
            rcases List.mem_cons.mp hp with rfl | hp'
            · exact ⟨sub_pos.mpr h1, isCents_sub hca.2 hda.2⟩
            · exact hc' p hp'
          have hcallnd : (((c, ca - da) :: cs').map Prod.fst ++ ds'.map Prod.fst).Nodup := by
            simp only [List.map_cons]
            rw [List.nodup_append]
            exact ⟨hL, hRt, fun a ha hb => hdisj ha (List.mem_cons_of_mem _ hb)⟩
          obtain ⟨ih1, ih2, ih3⟩ := ih ((c, ca - da) :: cs') ds' hlen hcall hd' hcallnd
          have hex : excessOf ((c, ca - da) :: cs') ds' =
              excessOf ((c, ca) :: cs') ((d, da) :: ds') := by
            simp only [excessOf, List.map_cons, List.sum_cons]
            congr 1
            ring
          have hexd : excessOf ds' ((c, ca - da) :: cs') =
              excessOf ((d, da) :: ds') ((c, ca) :: cs') := by
            simp only [excessOf, List.map_cons, List.sum_cons]
            congr 1
            ring
          have hdc : ¬(d = c) := fun h => hcd h.symm
          refine ⟨fun p hp => ?_, fun p hp => ?_, fun m hm1 hm2 => ?_⟩
          · rcases List.mem_cons.mp hp with heqp | hp'
            · have hpc : p = (c, ca) := heqp
              subst hpc
              have hnc : netChange (settleLoop ((c, ca) :: cs') ((d, da) :: ds')) c =
                  netChange (settleLoop ((c, ca - da) :: cs') ds') c - da := by
                rw [hS, netChange_cons]
                dsimp only
                rw [if_neg hdc, if_pos rfl]
                ring
              have hb := ih1 (c, ca - da) (List.mem_cons_self _ _)
              dsimp only at hb hnc ⊢
              rw [hnc]
              rw [hex] at hb
              constructor
              · linarith [hb.1]
              · linarith [hb.2]
            · have hpd : ¬(d = p.1) := fun h =>
                hdncs (h ▸ List.mem_map.mpr ⟨p, hp', rfl⟩)
              have hpc : ¬(c = p.1) := fun h =>
                hcncs (h ▸ List.mem_map.mpr ⟨p, hp', rfl⟩)
              have hnc : netChange (settleLoop ((c, ca) :: cs') ((d, da) :: ds')) p.1 =
                  netChange (settleLoop ((c, ca - da) :: cs') ds') p.1 := by
                rw [hS, netChange_cons]
                dsimp only
                rw [if_neg hpd, if_neg hpc]
                ring
              have hb := ih1 p (List.mem_cons_of_mem _ hp')
              rw [hex] at hb
              rw [hnc]
              exact hb
          · rcases List.mem_cons.mp hp with heqp | hp'
            · have hpd : p = (d, da) := heqp
              subst hpd
              have hnet0 : netChange (settleLoop ((c, ca - da) :: cs') ds') d = 0 := by
                apply ih3
                · simp only [List.map_cons, List.mem_cons]
                  push_neg
                  exact ⟨fun h => hcd h.symm, hdncs⟩
                · exact hdnds
              have hnc : netChange (settleLoop ((c, ca) :: cs') ((d, da) :: ds')) d = da := by
                rw [hS, netChange_cons]
                dsimp only
                rw [if_pos rfl, if_neg hcd, hnet0]
                ring
              dsimp only
              rw [hnc]
              refine ⟨by linarith, ?_⟩
              have h0 : (0 : ℚ) ≤ excessOf ((d, da) :: ds') ((c, ca) :: cs') :=
                le_max_right _ _
              linarith
            · have hpd : ¬(d = p.1) := fun h =>
                hdnds (h ▸ List.mem_map.mpr ⟨p, hp', rfl⟩)
              have hpc : ¬(c = p.1) := fun h =>
                hcnds (h ▸ List.mem_map.mpr ⟨p, hp', rfl⟩)
              have hnc : netChange (settleLoop ((c, ca) :: cs') ((d, da) :: ds')) p.1 =
                  netChange (settleLoop ((c, ca - da) :: cs') ds') p.1 := by
                rw [hS, netChange_cons]
                dsimp only
                rw [if_neg hpd, if_neg hpc]
                ring
              have hb := ih2 p hp'
              rw [hexd] at hb
              rw [hnc]
              exact hb
          · simp only [List.map_cons, List.mem_cons] at hm1 hm2
            push_neg at hm1 hm2
            have hnc : netChange (settleLoop ((c, ca) :: cs') ((d, da) :: ds')) m =
                netChange (settleLoop ((c, ca - da) :: cs') ds') m := by
              rw [hS, netChange_cons]
              dsimp only
              rw [if_neg (fun h : d = m => hm2.1 h.symm), if_neg (fun h : c = m => hm1.1 h.symm)]
              ring
            rw [hnc]
            apply ih3
            · simp only [List.map_cons, List.mem_cons]
              push_neg
              exact ⟨fun h => hm1.1 h, hm1.2⟩
            · exact hm2.2
        · by_cases h2 : ca < da
          · -- the creditor is exhausted; the debtor keeps the difference
            have hS : settleLoop ((c, ca) :: cs') ((d, da) :: ds') =
                ⟨d, c, ca⟩ :: settleLoop cs' ((d, da - ca) :: ds') := by
              simp only [settleLoop]
              rw [if_neg h1, if_pos h2, min_eq_left h2.le, round2_cents hca.2]
            have hlen : cs'.length + ((d, da - ca) :: ds').length ≤ n := by
              simp only [List.length_cons]
              omega
            have hcall : ∀ p ∈ (d, da - ca) :: ds', 0 < p.2 ∧ isCents p.2 := by
              intro p hp
              rcases List.mem_cons.mp hp with rfl | hp'
              · exact ⟨sub_pos.mpr h2, isCents_sub hda.2 hca.2⟩
              · exact hd' p hp'
            have hcallnd : (cs'.map Prod.fst ++ ((d, da - ca) :: ds').map Prod.fst).Nodup := by
              simp only [List.map_cons]
              rw [List.nodup_append]
              refine ⟨hLt, hR, fun a ha hb => ?_⟩
              exact hdisj (List.mem_cons_of_mem _ ha) hb
            obtain ⟨ih1, ih2, ih3⟩ := ih cs' ((d, da - ca) :: ds') hlen hc' hcall hcallnd
            have hex : excessOf cs' ((d, da - ca) :: ds') =
                excessOf ((c, ca) :: cs') ((d, da) :: ds') := by
              simp only [excessOf, List.map_cons, List.sum_cons]
              congr 1
              ring
            have hexd : excessOf ((d, da - ca) :: ds') cs' =
                excessOf ((d, da) :: ds') ((c, ca) :: cs') := by
              simp only [excessOf, List.map_cons, List.sum_cons]
              congr 1
              ring
            have hdc : ¬(d = c) := fun h => hcd h.symm
            refine ⟨fun p hp => ?_, fun p hp => ?_, fun m hm1 hm2 => ?_⟩
            · rcases List.mem_cons.mp hp with heqp | hp'
              · have hpc : p = (c, ca) := heqp
                subst hpc
                have hnet0 : netChange (settleLoop cs' ((d, da - ca) :: ds')) c = 0 := by
                  apply ih3
                  · exact hcncs
                  · simp only [List.map_cons, List.mem_cons]
                    push_neg
                    exact ⟨hcd, hcnds⟩
                have hnc : netChange (settleLoop ((c, ca) :: cs') ((d, da) :: ds')) c
                    = -ca := by
                  rw [hS, netChange_cons]
                  dsimp only
                  rw [if_neg hdc, if_pos rfl, hnet0]
                  ring
                dsimp only
                rw [hnc]
                refine ⟨by linarith, ?_⟩
                have h0 : (0 : ℚ) ≤ excessOf ((c, ca) :: cs') ((d, da) :: ds') :=
                  le_max_right _ _
                linarith
              · have hpd : ¬(d = p.1) := fun h =>
                  hdncs (h ▸ List.mem_map.mpr ⟨p, hp', rfl⟩)
                have hpc : ¬(c = p.1) := fun h =>
                  hcncs (h ▸ List.mem_map.mpr ⟨p, hp', rfl⟩)
                have hnc : netChange (settleLoop ((c, ca) :: cs') ((d, da) :: ds')) p.1 =
                    netChange (settleLoop cs' ((d, da - ca) :: ds')) p.1 := by
                  rw [hS, netChange_cons]
                  dsimp only
                  rw [if_neg hpd, if_neg hpc]
                  ring
                have hb := ih1 p hp'
                rw [hex] at hb
                rw [hnc]
                exact hb
            · rcases List.mem_cons.mp hp with heqp | hp'
              · have hpd : p = (d, da) := heqp
                subst hpd
                have hnc : netChange (settleLoop ((c, ca) :: cs') ((d, da) :: ds')) d =
                    netChange (settleLoop cs' ((d, da - ca) :: ds')) d + ca := by
                  rw [hS, netChange_cons]
                  dsimp only
                  rw [if_pos rfl, if_neg hcd]
                  ring
                have hb := ih2 (d, da - ca) (List.mem_cons_self _ _)
                dsimp only at hb hnc ⊢
                rw [hnc]
                rw [hexd] at hb
                constructor
                · linarith [hb.1]
                · linarith [hb.2]
              · have hpd : ¬(d = p.1) := fun h =>
                  hdnds (h ▸ List.mem_map.mpr ⟨p, hp', rfl⟩)
                have hpc : ¬(c = p.1) := fun h =>
                  hcnds (h ▸ List.mem_map.mpr ⟨p, hp', rfl⟩)
                have hnc : netChange (settleLoop ((c, ca) :: cs') ((d, da) :: ds')) p.1 =
                    netChange (settleLoop cs' ((d, da - ca) :: ds')) p.1 := by
                  rw [hS, netChange_cons]
                  dsimp only
                  rw [if_neg hpd, if_neg hpc]
                  ring
                have hb := ih2 p (List.mem_cons_of_mem _ hp')
                rw [hexd] at hb
                rw [hnc]
                exact hb
            · simp only [List.map_cons, List.mem_cons] at hm1 hm2
              push_neg at hm1 hm2
              have hnc : netChange (settleLoop ((c, ca) :: cs') ((d, da) :: ds')) m =
                  netChange (settleLoop cs' ((d, da - ca) :: ds')) m := by
                rw [hS, netChange_cons]
                dsimp only
                rw [if_neg (fun h : d = m => hm2.1 h.symm),
                  if_neg (fun h : c = m => hm1.1 h.symm)]
                ring
              rw [hnc]
              apply ih3
              · exact hm1.2
              · simp only [List.map_cons, List.mem_cons]
                push_neg
                exact ⟨fun h => hm2.1 h, hm2.2⟩
          · -- equal amounts: both sides are exhausted
            have heq : ca = da := le_antisymm (not_lt.mp h1) (not_lt.mp h2)
            subst heq
            have hS : settleLoop ((c, ca) :: cs') ((d, ca) :: ds') =
                ⟨d, c, ca⟩ :: settleLoop cs' ds' := by
              simp only [settleLoop]
              rw [if_neg h1, if_neg h2, min_self, round2_cents hca.2]
            have hlen : cs'.length + ds'.length ≤ n := by omega
            have hcallnd : (cs'.map Prod.fst ++ ds'.map Prod.fst).Nodup := by
              rw [List.nodup_append]
              exact ⟨hLt, hRt, fun a ha hb =>
                hdisj (List.mem_cons_of_mem _ ha) (List.mem_cons_of_mem _ hb)⟩
            obtain ⟨ih1, ih2, ih3⟩ := ih cs' ds' hlen hc' hd' hcallnd
            have hex : excessOf cs' ds' = excessOf ((c, ca) :: cs') ((d, ca) :: ds') := by
              simp only [excessOf, List.map_cons, List.sum_cons]
              congr 1
              ring
            have hexd : excessOf ds' cs' = excessOf ((d, ca) :: ds') ((c, ca) :: cs') := by
              simp only [excessOf, List.map_cons, List.sum_cons]
              congr 1
              ring
            have hdc : ¬(d = c) := fun h => hcd h.symm
            refine ⟨fun p hp => ?_, fun p hp => ?_, fun m hm1 hm2 => ?_⟩
            · rcases List.mem_cons.mp hp with heqp | hp'
              · have hpc : p = (c, ca) := heqp
                subst hpc
                have hnet0 : netChange (settleLoop cs' ds') c = 0 := ih3 c hcncs hcnds
                have hnc : netChange (settleLoop ((c, ca) :: cs') ((d, ca) :: ds')) c
                    = -ca := by
                  rw [hS, netChange_cons]
                  dsimp only
                  rw [if_neg hdc, if_pos rfl, hnet0]
                  ring
                dsimp only
                rw [hnc]
                refine ⟨by linarith, ?_⟩
                have h0 : (0 : ℚ) ≤ excessOf ((c, ca) :: cs') ((d, ca) :: ds') :=
                  le_max_right _ _
                linarith
              · have hpd : ¬(d = p.1) := fun h =>
                  hdncs (h ▸ List.mem_map.mpr ⟨p, hp', rfl⟩)
                have hpc : ¬(c = p.1) := fun h =>
                  hcncs (h ▸ List.mem_map.mpr ⟨p, hp', rfl⟩)
                have hnc : netChange (settleLoop ((c, ca) :: cs') ((d, ca) :: ds')) p.1 =
                    netChange (settleLoop cs' ds') p.1 := by
                  rw [hS, netChange_cons]
                  dsimp only
                  rw [if_neg hpd, if_neg hpc]
                  ring
                have hb := ih1 p hp'
                rw [hex] at hb
                rw [hnc]
                exact hb
            · rcases List.mem_cons.mp hp with heqp | hp'
              · have hpd : p = (d, ca) := heqp
                subst hpd
                have hnet0 : netChange (settleLoop cs' ds') d = 0 := ih3 d hdncs hdnds
                have hnc : netChange (settleLoop ((c, ca) :: cs') ((d, ca) :: ds')) d
                    = ca := by
                  rw [hS, netChange_cons]
                  dsimp only
                  rw [if_pos rfl, if_neg hcd, hnet0]
                  ring
                dsimp only
                rw [hnc]
                refine ⟨by linarith, ?_⟩
                have h0 : (0 : ℚ) ≤ excessOf ((d, ca) :: ds') ((c, ca) :: cs') :=
                  le_max_right _ _
                linarith
              · have hpd : ¬(d = p.1) := fun h =>
                  hdnds (h ▸ List.mem_map.mpr ⟨p, hp', rfl⟩)
                have hpc : ¬(c = p.1) := fun h =>
                  hcnds (h ▸ List.mem_map.mpr ⟨p, hp', rfl⟩)
                have hnc : netChange (settleLoop ((c, ca) :: cs') ((d, ca) :: ds')) p.1 =
                    netChange (settleLoop cs' ds') p.1 := by
                  rw [hS, netChange_cons]
                  dsimp only
                  rw [if_neg hpd, if_neg hpc]
                  ring
                have hb := ih2 p hp'
                rw [hexd] at hb
                rw [hnc]
                exact hb
            · simp only [List.map_cons, List.mem_cons] at hm1 hm2
              push_neg at hm1 hm2
              have hnc : netChange (settleLoop ((c, ca) :: cs') ((d, ca) :: ds')) m =
                  netChange (settleLoop cs' ds') m := by
                rw [hS, netChange_cons]
                dsimp only
                rw [if_neg (fun h : d = m => hm2.1 h.symm),
                  if_neg (fun h : c = m => hm1.1 h.symm)]
                ring
              rw [hnc]
              exact ih3 m hm1.2 hm2.2

theorem sum_map_neg (l : List (String × ℚ)) :
    ((l.map (fun p => (p.1, -p.2))).map Prod.snd).sum = -((l.map Prod.snd).sum) := by
  induction l with
  | nil => simp
  | cons a t ih =>
    simp only [List.map_cons, List.sum_cons]
    rw [ih]
    ring

theorem partition_sum :
    ∀ b : List (String × ℚ), (∀ p ∈ b, p.2 = 0 ∨ 1/100 < |p.2|) →
      ((b.filter (fun p => decide ((1 : ℚ)/100 < p.2))).map Prod.snd).sum +
          ((b.filter (fun p => decide (p.2 < -((1 : ℚ)/100)))).map Prod.snd).sum =
        (b.map Prod.snd).sum := by
  intro b
  induction b with
  | nil => intro _; simp
  | cons p t ih =>
    intro hgap
    have hgt : ∀ q ∈ t, q.2 = 0 ∨ 1/100 < |q.2| :=
      fun q hq => hgap q (List.mem_cons_of_mem _ hq)
    by_cases hg1 : (1 : ℚ)/100 < p.2
    · have hg2 : ¬(p.2 < -((1 : ℚ)/100)) := by linarith
      rw [List.filter_cons, List.filter_cons, if_pos (decide_eq_true hg1),
        if_neg (fun hh => hg2 (of_decide_eq_true hh))]
      simp only [List.map_cons, List.sum_cons]
      linarith [ih hgt]
    · by_cases hg2 : p.2 < -((1 : ℚ)/100)
      · rw [List.filter_cons, List.filter_cons,
          if_neg (fun hh => hg1 (of_decide_eq_true hh)), if_pos (decide_eq_true hg2)]
        simp only [List.map_cons, List.sum_cons]
        linarith [ih hgt]
      · have hz : p.2 = 0 := by
          rcases hgap p (List.mem_cons_self _ _) with h0 | habs
          · exact h0
          · rcases abs_cases p.2 with ⟨he, _⟩ | ⟨he, _⟩
            · exact absurd (he ▸ habs) hg1
            · exact absurd (by linarith [he ▸ habs] : p.2 < -((1 : ℚ)/100)) hg2
        rw [List.filter_cons, List.filter_cons,
          if_neg (fun hh => hg1 (of_decide_eq_true hh)),
          if_neg (fun hh => hg2 (of_decide_eq_true hh)),
          List.map_cons, List.sum_cons, hz, zero_add]
        exact ih hgt

/-- C1 (counterexample): the claim's literal application rule ("subtract the
amount from the `from` member, add it to the `to` member") moves balances
away from zero: for the exactly-balanced mapping `{A: 60, B: -60}` (sum 0,
within 0.01 of zero) member `A` ends at 120, not within 0.01 of 0. -/
theorem simplify_debts_as_written_cx :
    (([("A", (60 : ℚ)), ("B", -60)]).map Prod.snd).sum = 0 ∧
    1/100 < |applySettlementsAsWritten (lookupAmt [("A", (60 : ℚ)), ("B", -60)])
      (simplify_debts [("A", (60 : ℚ)), ("B", -60)]) "A"| := by
  constructor
  · norm_num
  · have h60 : round2 (60 : ℚ) = 60 := round2_cents ⟨6000, by norm_num⟩
    have hS : simplify_debts [("A", (60 : ℚ)), ("B", -60)] = [⟨"B", "A", 60⟩] := by
      norm_num [simplify_debts, creditorsOf, debtorsOf, sortDesc, List.insertionSort,
        List.orderedInsert, settleLoop, min_def, h60]
    rw [hS, applySettlementsAsWritten_apply]
    have hBA : ¬(("B" : String) = "A") := by decide
    have hnet : netChange [⟨"B", "A", 60⟩] "A" = -60 := by
      simp [netChange, hBA]
    have hlook : lookupAmt [("A", (60 : ℚ)), ("B", -60)] "A" = 60 := by
      simp [lookupAmt, List.find?]
    rw [hnet, hlook]
    rw [show (60 : ℚ) - -60 = 120 by norm_num,
      abs_of_pos (by norm_num : (0 : ℚ) < 120)]
    norm_num

/-- C1 (amended): for a balances mapping with distinct member keys, whole-cent
values, whose values sum to within 0.01 of zero, and in which every nonzero
value exceeds 0.01 in absolute value, applying every settlement returned by
`simplify_debts` as a payment (amount is added to the `from` member's balance
and subtracted from the `to` member's — the sign-corrected reading of the
claim's rule) leaves every member's balance within 0.01 of 0. -/
theorem simplify_debts_settles (b : List (String × ℚ))
    (hnd : (b.map Prod.fst).Nodup)
    (hcents : ∀ p ∈ b, isCents p.2)
    (hgap : ∀ p ∈ b, p.2 = 0 ∨ 1/100 < |p.2|)
    (hsum : |(b.map Prod.snd).sum| ≤ 1/100) :
    ∀ p ∈ b, |applySettlements (lookupAmt b) (simplify_debts b) p.1| ≤ 1/100 := by
  have hpermc : List.Perm (creditorsOf b)
      (b.filter (fun p => decide ((1 : ℚ)/100 < p.2))) :=
    List.perm_insertionSort _ _
  have hpermd : List.Perm (debtorsOf b)
      ((b.filter (fun p => decide (p.2 < -((1 : ℚ)/100)))).map (fun p => (p.1, -p.2))) :=
    List.perm_insertionSort _ _
  have hmemc : ∀ p, p ∈ creditorsOf b ↔ (p ∈ b ∧ (1 : ℚ)/100 < p.2) := by
    intro p
    rw [hpermc.mem_iff, List.mem_filter]
    simp
  have hmemd : ∀ p, p ∈ debtorsOf b ↔
      ∃ q, q ∈ b ∧ q.2 < -((1 : ℚ)/100) ∧ p = (q.1, -q.2) := by
    intro p
    rw [hpermd.mem_iff, List.mem_map]
    constructor
    · rintro ⟨q, hq, rfl⟩
      rw [List.mem_filter] at hq
      exact ⟨q, hq.1, by simpa using hq.2, rfl⟩
    · rintro ⟨q, hqb, hqlt, rfl⟩
      exact ⟨q, List.mem_filter.mpr ⟨hqb, by simpa using hqlt⟩, rfl⟩
  have hcondc : ∀ p ∈ creditorsOf b, 0 < p.2 ∧ isCents p.2 := by
    intro p hp
    obtain ⟨hpb, hplt⟩ := (hmemc p).mp hp
    exact ⟨by linarith, hcents p hpb⟩
  have hcondd : ∀ p ∈ debtorsOf b, 0 < p.2 ∧ isCents p.2 := by
    intro p hp
    obtain ⟨q, hqb, hqlt, rfl⟩ := (hmemd p).mp hp
    exact ⟨by dsimp only; linarith, isCents_neg (hcents q hqb)⟩
  have hndkeys : ((creditorsOf b).map Prod.fst ++ (debtorsOf b).map Prod.fst).Nodup := by
    have hpk : List.Perm
        ((creditorsOf b).map Prod.fst ++ (debtorsOf b).map Prod.fst)
        ((b.filter (fun p => decide ((1 : ℚ)/100 < p.2))).map Prod.fst ++
          ((b.filter (fun p => decide (p.2 < -((1 : ℚ)/100)))).map
            (fun p => (p.1, -p.2))).map Prod.fst) :=
      List.Perm.append (hpermc.map _) (hpermd.map _)
    apply hpk.nodup_iff.mpr
    have hmm : ((b.filter (fun p => decide (p.2 < -((1 : ℚ)/100)))).map
        (fun p => (p.1, -p.2))).map Prod.fst =
        (b.filter (fun p => decide (p.2 < -((1 : ℚ)/100)))).map Prod.fst := by
      rw [List.map_map]
      rfl
    rw [hmm, List.nodup_append]
    refine ⟨?_, ?_, ?_⟩
    · exact List.Nodup.sublist (List.Sublist.map Prod.fst (List.filter_sublist b)) hnd
    · exact List.Nodup.sublist (List.Sublist.map Prod.fst (List.filter_sublist b)) hnd
    · intro a ha hb2
      obtain ⟨p, hp, rfl⟩ := List.mem_map.mp ha
      obtain ⟨q, hq, hqa⟩ := List.mem_map.mp hb2
      rw [List.mem_filter] at hp hq
      have hpq : q = p := List.inj_on_of_nodup_map hnd hq.1 hp.1 hqa
      have h1 : (1 : ℚ)/100 < p.2 := by simpa using hp.2
      have h2 : q.2 < -((1 : ℚ)/100) := by simpa using hq.2
      rw [hpq] at h2
      linarith
  obtain ⟨main1, main2, main3⟩ := settleLoop_main
    ((creditorsOf b).length + (debtorsOf b).length) (creditorsOf b) (debtorsOf b)
    le_rfl hcondc hcondd hndkeys
  have hsc : ((creditorsOf b).map Prod.snd).sum =
      ((b.filter (fun p => decide ((1 : ℚ)/100 < p.2))).map Prod.snd).sum :=
    (hpermc.map _).sum_eq
  have hsd : ((debtorsOf b).map Prod.snd).sum =
      -(((b.filter (fun p => decide (p.2 < -((1 : ℚ)/100)))).map Prod.snd).sum) := by
    rw [(hpermd.map _).sum_eq, sum_map_neg]
  have hkey : ((creditorsOf b).map Prod.snd).sum - ((debtorsOf b).map Prod.snd).sum =
      (b.map Prod.snd).sum := by
    have hps := partition_sum b hgap
    rw [hsc, hsd]
    linarith
  have hex1 : excessOf (creditorsOf b) (debtorsOf b) ≤ 1/100 := by
    simp only [excessOf]
    rw [hkey]
    apply max_le
    · exact le_trans (le_abs_self _) hsum
    · norm_num
  have hex2 : excessOf (debtorsOf b) (creditorsOf b) ≤ 1/100 := by
    simp only [excessOf]
    rw [show ((debtorsOf b).map Prod.snd).sum - ((creditorsOf b).map Prod.snd).sum =
      -((b.map Prod.snd).sum) from by linarith]
    apply max_le
    · exact le_trans (neg_le_abs _) hsum
    · norm_num
  intro p hp
  rw [applySettlements_apply, lookupAmt_eq b hnd p hp, simplify_debts]
  by_cases hc1p : (1 : ℚ)/100 < p.2
  · have hpc : p ∈ creditorsOf b := (hmemc p).mpr ⟨hp, hc1p⟩
    have hb := main1 p hpc
    rw [abs_of_nonneg hb.1]
    exact le_trans hb.2 hex1
  · by_cases hc2p : p.2 < -((1 : ℚ)/100)
    · have hpd : (p.1, -p.2) ∈ debtorsOf b := (hmemd _).mpr ⟨p, hp, hc2p, rfl⟩
      have hb := main2 (p.1, -p.2) hpd
      dsimp only at hb
      have habs : |p.2 + netChange (settleLoop (creditorsOf b) (debtorsOf b)) p.1| =
          -p.2 - netChange (settleLoop (creditorsOf b) (debtorsOf b)) p.1 := by
        rw [show p.2 + netChange (settleLoop (creditorsOf b) (debtorsOf b)) p.1 =
          -(-p.2 - netChange (settleLoop (creditorsOf b) (debtorsOf b)) p.1) from by ring,
          abs_neg, abs_of_nonneg hb.1]
      rw [habs]
      exact le_trans hb.2 hex2
    · have hz : p.2 = 0 := by
        rcases hgap p hp with h0 | habs
        · exact h0
        · rcases abs_cases p.2 with ⟨he, _⟩ | ⟨he, _⟩
          · exact absurd (he ▸ habs) hc1p
          · exact absurd (by linarith [he ▸ habs] : p.2 < -((1 : ℚ)/100)) hc2p
      have hnet : netChange (settleLoop (creditorsOf b) (debtorsOf b)) p.1 = 0 := by
        apply main3
        · intro hmem
          obtain ⟨q, hq, hqe⟩ := List.mem_map.mp hmem
          have hqq := (hmemc q).mp hq
          have hqp : q = p := List.inj_on_of_nodup_map hnd hqq.1 hp hqe
          exact hc1p (hqp ▸ hqq.2)
        · intro hmem
          obtain ⟨q, hq, hqe⟩ := List.mem_map.mp hmem
          obtain ⟨r, hrb, hrlt, rfl⟩ := (hmemd q).mp hq
          have hrp : r = p := List.inj_on_of_nodup_map hnd hrb hp (by simpa using hqe)
          exact hc2p (hrp ▸ hrlt)
      rw [hz, hnet]
      norm_num

/-- C1 witness: the amended theorem at `{A: 60, B: -30, C: -30}`, member `B`. -/
theorem simplify_debts_settles_witness :
    |applySettlements (lookupAmt [("A", (60 : ℚ)), ("B", -30), ("C", -30)])
      (simplify_debts [("A", (60 : ℚ)), ("B", -30), ("C", -30)]) "B"| ≤ 1/100 := by
  have h := simplify_debts_settles [("A", (60 : ℚ)), ("B", -30), ("C", -30)]
    (by simp)
    (by
      intro p hp
      simp only [List.mem_cons, List.not_mem_nil, or_false] at hp
      rcases hp with rfl | rfl | rfl
      · exact ⟨6000, by norm_num⟩
      · exact ⟨-3000, by norm_num⟩
      · exact ⟨-3000, by norm_num⟩)
    (by
      intro p hp
      simp only [List.mem_cons, List.not_mem_nil, or_false] at hp
      rcases hp with rfl | rfl | rfl
      · exact Or.inr (by rw [show |(60 : ℚ)| = 60 from abs_of_pos (by norm_num)]; norm_num)
      · exact Or.inr (by rw [show |(-30 : ℚ)| = 30 from by rw [abs_of_neg] <;> norm_num]; norm_num)
      · exact Or.inr (by rw [show |(-30 : ℚ)| = 30 from by rw [abs_of_neg] <;> norm_num]; norm_num))
    (by norm_num)
  exact h ("B", -30) (by simp)

end SettleUp
